import Mathlib

/-!
Verification development for the media-renamer repository (Rust).

The file shallowly embeds the core of the program:
* `src/path_utils.rs`  — stem / extension / filename helpers,
* `src/dir_walker.rs`  — the `DirWalker` iterator over a modelled filesystem,
* `src/name_parser.rs` — text replacements and the ordered regex fallback
  chains (`parse_filepath`, `parse_stem`),
* `src/media.rs`       — `MediaFile`, `request_name`, `get_path`,
* `src/main.rs`        — `Config::default` and the per-file pipeline
  `process_file`.

External collaborators (the filesystem, the TVDB HTTP client, the `regex`
crate) are modelled by explicit function parameters or small executable
models, as documented at each definition.  Machine integers (`u32`, `usize`)
are embedded as `Nat` with explicit bounds where the source checks them.
-/

/-- Rust `Result`, embedded with its own name to keep `DecidableEq` easy. -/
inductive RResult (ε : Type) (α : Type) where
  | Ok (a : α)
  | Err (e : ε)
deriving DecidableEq

/-! ## Decimal digits (model of Rust `Display` for unsigned integers) -/

/-- The ten decimal digit characters, as Rust formats unsigned integers. -/
def digitChar : Nat → Char
  | 0 => '0' | 1 => '1' | 2 => '2' | 3 => '3' | 4 => '4'
  | 5 => '5' | 6 => '6' | 7 => '7' | 8 => '8' | _ => '9'

/-- Is `c` an ASCII decimal digit (codepoints 48–57)? -/
def isDig (c : Char) : Bool := 47 < c.toNat && c.toNat < 58

/-- Fuel-indexed most-significant-first decimal digits of `n`; any
`fuel > n` is enough, see `natDigs_spec`. -/
def natDigs : Nat → Nat → List Char
  | 0, _ => []
  | fuel + 1, n =>
    if n < 10 then [digitChar n]
    else natDigs fuel (n / 10) ++ [digitChar (n % 10)]

/-- Decimal representation of `n`, as Rust's `{}` format for `u32`. -/
def natReprL (n : Nat) : List Char := natDigs (n + 1) n

/-- Numeric value of a digit string (most significant first). -/
def digsVal (l : List Char) : Nat := l.foldl (fun a c => 10 * a + (c.toNat - 48)) 0

/-- Rust's `{:0>2}` format: left-pad the decimal form with `'0'` to width 2;
numbers of three or more digits are printed as-is ("wider"). -/
def pad2 (n : Nat) : List Char := if n < 10 then '0' :: natReprL n else natReprL n

/-! ## Paths (model of `std::path::PathBuf` on Unix)

A `PathBuf` compares equal to another iff their parsed components agree
(`Path::components` skips empty segments produced by repeated or trailing
separators).  `push` appends the components of the argument, unless the
argument is absolute (starts with `'/'`), in which case it replaces the
whole path.  `.` and `..` components do not occur in this development and
are not modelled. -/

/-- Split a character list at `'/'` (segments may be empty). -/
def splitSlash : List Char → List (List Char)
  | [] => [[]]
  | c :: rest =>
    if c = '/' then [] :: splitSlash rest
    else
      match splitSlash rest with
      | [] => [[c]]
      | g :: gs => (c :: g) :: gs

/-- The non-empty components of a raw path string. -/
def pCompsL (l : List Char) : List (List Char) := (splitSlash l).filter (fun g => g ≠ [])

/-- The non-empty components of a raw path string. -/
def pComps (s : String) : List (List Char) := pCompsL s.data

/-- A parsed path: absolute flag plus its non-empty components. -/
structure RPath where
  absolute : Bool
  comps : List (List Char)
deriving DecidableEq

/-- The empty `PathBuf` (`PathBuf::new()`). -/
def emptyPath : RPath := ⟨false, []⟩

/-- Does the raw string denote an absolute path (Unix: leading `'/'`)? -/
def isAbsStr (s : String) : Bool :=
  match s.data with
  | '/' :: _ => true
  | _ => false

/-- `PathBuf::push` with a string argument. -/
def pushP (p : RPath) (s : String) : RPath :=
  if isAbsStr s then ⟨true, pComps s⟩ else ⟨p.absolute, p.comps ++ pComps s⟩

/-- `PathBuf::push` with a whole (relative or absolute) path argument. -/
def pushPath (p q : RPath) : RPath :=
  if q.absolute then q else ⟨p.absolute, p.comps ++ q.comps⟩

/-- `PathBuf::from` on a string. -/
def pathFromString (s : String) : RPath := ⟨isAbsStr s, pComps s⟩

/-- `Path::parent`: drop the last component (`none` at a root). -/
def parentP (p : RPath) : Option RPath :=
  match p.comps with
  | [] => none
  | _ :: _ => some ⟨p.absolute, p.comps.dropLast⟩

/-! ## Media model (`src/media.rs`) -/

/-- `MediaData` from `src/media.rs`: season/episode/year are `u32` in the
source; values are produced by `parse_u32` below, which enforces the `u32`
range, so plain `Nat` carries them here. -/
inductive MediaData where
  | TvSeries (season : Nat) (episode : Nat)
  | Movie (year : Nat)
deriving DecidableEq

/-- `MediaType` from `src/media.rs`. -/
inductive MediaType where
  | Movie
  | Series
deriving DecidableEq

/-- `TvdbError` from `src/tvdb.rs`; payloads of the transport errors are
abstracted to numeric tags (their contents never influence control flow). -/
inductive TvdbErr where
  | Unauthenticated
  | RequestError (tag : Nat)
  | ParseError (tag : Nat)
  | HttpError (status : Nat)
deriving DecidableEq

/-- One entry of `SearchReply` from `src/tvdb.rs`. -/
structure SearchResult where
  name : String
deriving DecidableEq

/-- `MediaFile` from `src/media.rs`. -/
structure MediaFile where
  name : String
  extension : String
  media_data : MediaData
deriving DecidableEq

/-- `MediaFile::media_type`. -/
def MediaFile.media_type (m : MediaFile) : MediaType :=
  match m.media_data with
  | .TvSeries _ _ => MediaType.Series
  | .Movie _ => MediaType.Movie

/-- The TVDB client's `search` capability, abstracted: the HTTP transport is
an external collaborator, so a search is any function from the query to a
result list or error. -/
def TvdbSearch : Type := String → MediaType → RResult TvdbErr (List SearchResult)

/-- `MediaFile::request_name` from `src/media.rs`: look the current name up,
replace it with the first candidate's name; `Ok false` when there are no
candidates; transport errors propagate via `?` before any mutation.  The
source mutates `self`; here the updated file is returned alongside the
`Result`. -/
def request_name (m : MediaFile) (tvdb : TvdbSearch) :
    RResult TvdbErr Bool × MediaFile :=
  let media_type :=
    match m.media_data with
    | .TvSeries _ _ => MediaType.Series
    | .Movie _ => MediaType.Movie
  match tvdb m.name media_type with
  | .Err e => (.Err e, m)
  | .Ok results =>
    match results.head? with
    | some r => (.Ok true, { m with name := r.name })
    | none => (.Ok false, m)

/-- `MediaFile::get_path` from `src/media.rs`: build the destination path by
successive `PathBuf::push` calls; `{:0>2}` is `pad2`, `{}` on a `u32` is
`natReprL`. -/
def get_path (m : MediaFile) : RPath :=
  match m.media_data with
  | .TvSeries season episode =>
    pushP (pushP (pushP (pushP emptyPath "TV") m.name)
        ("Season " ++ ⟨natReprL season⟩))
      (m.name ++ " - s" ++ ⟨pad2 season⟩ ++ "e" ++ ⟨pad2 episode⟩ ++ "."
        ++ m.extension)
  | .Movie year =>
    pushP (pushP (pushP emptyPath "Movies")
        (m.name ++ " (" ++ ⟨natReprL year⟩ ++ ")"))
      (m.name ++ " (" ++ ⟨natReprL year⟩ ++ ")." ++ m.extension)

/-! ## Path utilities (`src/path_utils.rs`)

`Path::file_stem` / `extension` / `file_name` semantics: the file name is
the last non-empty component; the extension is the part after the last dot
of the file name, unless that dot is its first character or absent.  Loss of
UTF-8 representability (`to_str` returning `None`) cannot occur for the
`String`-modelled paths used here, and `..` components are not modelled. -/

/-- `Path::file_name`, as characters. -/
def fileNameL (p : String) : Option (List Char) := (pCompsL p.data).getLast?

/-- Split a file name into (stem, optional extension) per Rust's rules. -/
def stemExt (name : List Char) : List Char × Option (List Char) :=
  let r := name.reverse
  let pre := r.takeWhile (fun c => c ≠ '.')
  match r.dropWhile (fun c => c ≠ '.') with
  | [] => (name, none)
  | _ :: afterDot =>
    if afterDot = [] then (name, none)
    else (afterDot.reverse, some pre.reverse)

/-- `get_filestem` from `src/path_utils.rs`. -/
def get_filestem (p : String) : Option String :=
  (fileNameL p).map (fun n => ⟨(stemExt n).1⟩)

/-- `get_extension` from `src/path_utils.rs`. -/
def get_extension (p : String) : Option String :=
  (fileNameL p).bind (fun n => ((stemExt n).2).map (fun e => (⟨e⟩ : String)))

/-- `get_filename` from `src/path_utils.rs`. -/
def get_filename (p : String) : Option String :=
  (fileNameL p).map (fun n => (⟨n⟩ : String))

/-! ## Text replacement (Rust `str::replace`) -/

/-- One fuel step per input character; `fuel ≥ length of the input` makes the
scan complete.  Matches are non-overlapping, left to right, and the scan
resumes after the replaced text, as `str::replace` does. -/
def replaceScan (pat rep : List Char) : Nat → List Char → List Char
  | 0, l => l
  | _ + 1, [] => []
  | fuel + 1, c :: rest =>
    if pat.isPrefixOf (c :: rest) then
      rep ++ replaceScan pat rep fuel (List.drop (pat.length - 1) rest)
    else
      c :: replaceScan pat rep fuel rest

/-- Rust `str::replace self from to`: every occurrence of `from`, literal,
non-regex.  The empty pattern matches at every character boundary. -/
def rustReplace (s pat rep : String) : String :=
  match pat.data with
  | [] => ⟨rep.data ++ s.data.flatMap (fun c => c :: rep.data)⟩
  | _ => ⟨replaceScan pat.data rep.data s.data.length s.data⟩

/-- The `for replacement in &config.replacements` loop of `parse_filepath`
(`src/name_parser.rs`): each replacement rewrites the running stem. -/
def applyReplacements : String → List (String × String) → String
  | st, [] => st
  | st, (f, t) :: rest => applyReplacements (rustReplace st f t) rest

/-! ## `u32` parsing (Rust `str::parse::<u32>`) -/

/-- Rust `u32::from_str`: an optional leading `'+'`, then one or more ASCII
digits, value below `2^32`; anything else is an error. -/
def parse_u32 (s : String) : Option Nat :=
  let l :=
    match s.data with
    | '+' :: rest => rest
    | l => l
  if l = [] then none
  else if l.all isDig then
    let v := digsVal l
    if v < 4294967296 then some v else none
  else none

/-! ## The regex collaborator

`src/name_parser.rs` uses the `regex` crate: `Regex::new` may fail
(malformed pattern), `Regex::captures` finds the leftmost match and exposes
named capture groups as optional strings.  The crate is external, so the
parser is embedded relative to an arbitrary engine of this shape. -/

/-- An engine: pattern compilation and captured-group extraction.  `exec`
returns `none` when the pattern does not match, otherwise the named-group
lookup function (`none` for a group that did not participate). -/
structure RegexEngine (ρ : Type) where
  compile : String → Option ρ
  exec : ρ → String → Option (String → Option String)

/-! ## Name parser (`src/name_parser.rs`) -/

/-- `Config` from `src/main.rs` (the `tvdb_api_key` field never reaches the
parsing core and is omitted). -/
structure Config where
  extensions : List String
  tv_regex : List String
  movie_regex : List String
  replacements : List (String × String)
  ignored_dirs : List String

/-- The TV loop of `parse_stem`: each `continue` of the source is a tail
call on the remaining patterns. -/
def tvChain {ρ : Type} (eng : RegexEngine ρ) (stem : String) :
    List String → Option (String × MediaData)
  | [] => none
  | reStr :: rest =>
    match eng.compile reStr with
    | none => tvChain eng stem rest
    | some re =>
      match eng.exec re stem with
      | none => tvChain eng stem rest
      | some caps =>
        match caps "name" with
        | none => tvChain eng stem rest
        | some name =>
          match caps "season" with
          | none => tvChain eng stem rest
          | some seasonStr =>
            match parse_u32 seasonStr with
            | none => tvChain eng stem rest
            | some season =>
              match caps "episode" with
              | none => tvChain eng stem rest
              | some episodeStr =>
                match parse_u32 episodeStr with
                | none => tvChain eng stem rest
                | some episode => some (name, MediaData.TvSeries season episode)

/-- The movie loop of `parse_stem`. -/
def movieChain {ρ : Type} (eng : RegexEngine ρ) (stem : String) :
    List String → Option (String × MediaData)
  | [] => none
  | reStr :: rest =>
    match eng.compile reStr with
    | none => movieChain eng stem rest
    | some re =>
      match eng.exec re stem with
      | none => movieChain eng stem rest
      | some caps =>
        match caps "name" with
        | none => movieChain eng stem rest
        | some name =>
          match caps "year" with
          | none => movieChain eng stem rest
          | some yearStr =>
            match parse_u32 yearStr with
            | none => movieChain eng stem rest
            | some year => some (name, MediaData.Movie year)

/-- `parse_stem` from `src/name_parser.rs`: the TV chain, then, only on
failure, the movie chain. -/
def parse_stem {ρ : Type} (eng : RegexEngine ρ) (stem : String) (config : Config) :
    Option (String × MediaData) :=
  match tvChain eng stem config.tv_regex with
  | some r => some r
  | none => movieChain eng stem config.movie_regex

/-- `parse_filepath` from `src/name_parser.rs`. -/
def parse_filepath {ρ : Type} (eng : RegexEngine ρ) (path : String) (config : Config) :
    Option MediaFile :=
  match get_filestem path with
  | none => none
  | some stem0 =>
    let stem := applyReplacements stem0 config.replacements
    match parse_stem eng stem config with
    | none => none
    | some (name, media_data) =>
      match get_extension path with
      | none => none
      | some ext => some ⟨name, ext, media_data⟩

/-! ## A concrete regex engine for the default configuration

A backtracking matcher with Perl-style preferences — leftmost starting
position, greedy quantifiers prefer longer — which is what the `regex`
crate implements ("leftmost-first" semantics).  It supports exactly the
constructs appearing in `Config::default`'s patterns: `.`, literal
characters, character classes, greedy `*` and `+`, and named groups. -/

/-- Regex abstract syntax for the default patterns. -/
inductive RE where
  | eps
  | anyC
  | oneOf (cs : List Char)
  | cat (a b : RE)
  | starG (a : RE)
  | grp (g : String) (a : RE)

/-- Greedy `+`: one occurrence then a greedy star. -/
def rplus (a : RE) : RE := .cat a (.starG a)

/-- Captured groups in completion order. -/
abbrev Caps : Type := List (String × String)

/-- All ways `re` can match a prefix of `l`, as (consumed, captures) pairs
in backtracking priority order.  One fuel unit per constructor level or
star unrolling; star iterations must consume input, so any
`fuel ≥ pattern size + length of l` is exhaustive. -/
def mtchF : Nat → RE → List Char → List (List Char × Caps)
  | 0, _, _ => []
  | _ + 1, .eps, _ => [([], [])]
  | _ + 1, .anyC, [] => []
  | _ + 1, .anyC, c :: _ => [([c], [])]
  | _ + 1, .oneOf _, [] => []
  | _ + 1, .oneOf cs, c :: _ => if cs.contains c then [([c], [])] else []
  | fuel + 1, .cat a b, l =>
    (mtchF fuel a l).flatMap (fun pa =>
      (mtchF fuel b (l.drop pa.1.length)).map (fun pb => (pa.1 ++ pb.1, pa.2 ++ pb.2)))
  | fuel + 1, .starG a, l =>
    ((mtchF fuel a l).filter (fun pa => ¬ pa.1.isEmpty)).flatMap (fun pa =>
      (mtchF fuel (.starG a) (l.drop pa.1.length)).map
        (fun pb => (pa.1 ++ pb.1, pa.2 ++ pb.2)))
      ++ [([], [])]
  | fuel + 1, .grp g a, l =>
    (mtchF fuel a l).map (fun pa => (pa.1, pa.2 ++ [(g, (⟨pa.1⟩ : String))]))

/-- Leftmost search: try each start position left to right and take the
highest-priority match there. -/
def reFindFrom (re : RE) : List Char → Option Caps
  | [] =>
    match mtchF 64 re [] with
    | pa :: _ => some pa.2
    | [] => none
  | c :: t =>
    match mtchF ((c :: t).length + 64) re (c :: t) with
    | pa :: _ => some pa.2
    | [] => reFindFrom re t

/-- Group lookup over the capture list. -/
def capsFun (cs : Caps) : String → Option String :=
  fun g => (cs.find? (fun pr => pr.1 == g)).map (fun pr => pr.2)

/-- `Regex::captures` over the model. -/
def reCaptures (re : RE) (s : String) : Option (String → Option String) :=
  (reFindFrom re s.data).map capsFun

/-- `[0-9]`. -/
def digitCls : RE := .oneOf ['0', '1', '2', '3', '4', '5', '6', '7', '8', '9']

/-- The default TV pattern string from `Config::default` in `src/main.rs`. -/
def tvPatStr : String := "(?<name>.*) [Ss](?<season>[0-9]+)[Ee](?<episode>[0-9]+)"

/-- The default movie pattern string from `Config::default`. -/
def moviePatStr : String := "(?<name>.*) (?<year>[0-9]+) "

/-- Abstract syntax of `tvPatStr`. -/
def tvPatRE : RE :=
  .cat (.grp "name" (.starG .anyC))
    (.cat (.oneOf [' '])
      (.cat (.oneOf ['S', 's'])
        (.cat (.grp "season" (rplus digitCls))
          (.cat (.oneOf ['E', 'e'])
            (.grp "episode" (rplus digitCls))))))

/-- Abstract syntax of `moviePatStr`. -/
def moviePatRE : RE :=
  .cat (.grp "name" (.starG .anyC))
    (.cat (.oneOf [' '])
      (.cat (.grp "year" (rplus digitCls)) (.oneOf [' '])))

/-- `Regex::new` restricted to the default configuration's patterns (other
strings are treated as failing to compile; the chains skip those). -/
def modelCompile (s : String) : Option RE :=
  if s = tvPatStr then some tvPatRE
  else if s = moviePatStr then some moviePatRE
  else none

/-- The concrete engine used to evaluate the parser on the default config. -/
def defaultEngine : RegexEngine RE :=
  { compile := modelCompile, exec := reCaptures }

/-- `Config::default` from `src/main.rs`. -/
def defaultConfig : Config :=
  { extensions := ["mkv", "srr"]
    tv_regex := [tvPatStr]
    movie_regex := [moviePatStr]
    replacements := [(".", " ")]
    ignored_dirs := ["Sample", "sample", "Samples", "samples"] }

/-! ## Directory walker (`src/dir_walker.rs`)

The filesystem is the external collaborator: it answers `is_dir` queries
and directory reads.  `read_dir` yields entry *names*; the walker forms an
entry's path by joining, which is what `std::fs::ReadDir` guarantees for
`DirEntry::path`.  Paths are component lists; names are assumed UTF-8
representable (`get_filename` never loses them in this model). -/

/-- Walker-visible I/O errors. -/
inductive IOErr where
  | NotADirectory (dir : List String)
  | Other (tag : Nat)
deriving DecidableEq

/-- A model filesystem. -/
structure FSM where
  isDir : List String → Bool
  readDir : List String → RResult IOErr (List (RResult IOErr String))

/-- A directory entry as the walker yields it (`DirEntry::path`). -/
structure WEntry where
  path : List String
deriving DecidableEq

/-- One element of the walker's output sequence. -/
abbrev WItem : Type := RResult IOErr WEntry

/-- One queue slot: a failed `read_dir`, or a directory with its unread
entries (`Result<ReadDir, Error>` in the source). -/
abbrev Cursor : Type := RResult IOErr (List String × List (RResult IOErr String))

/-- Issue `fs::read_dir` for `dir` and wrap it as a queue slot. -/
def readCursor (fs : FSM) (dir : List String) : Cursor :=
  match fs.readDir dir with
  | .Ok items => .Ok (dir, items)
  | .Err e => .Err e

/-- `DirWalker` from `src/dir_walker.rs`. -/
structure DirWalker where
  iterator_queue : List Cursor
  max_depth : Option Nat
  ignored_dirs : List String

/-- `DirWalker::new`: a non-directory root enqueues one `NotADirectory`
error; otherwise the root's `read_dir` result is enqueued. -/
def DirWalker.new (fs : FSM) (directory : List String) (max_depth : Option Nat)
    (ignored_dirs : List String) : DirWalker :=
  { iterator_queue :=
      if fs.isDir directory then [readCursor fs directory]
      else [.Err (.NotADirectory directory)]
    max_depth
    ignored_dirs }

/-- The `while let Some(iter_res) = ... pop_front()` loop of
`DirWalker::next`.  `val <= 0` on a `usize` is `val = 0`; the `usize`
decrement on cursor exhaustion is `Nat` subtraction here (see
`nextLoopChecked` for the underflow-free variant). -/
def nextLoop (fs : FSM) (ign : List String) :
    Option Nat → List Cursor → Option (WItem × List Cursor × Option Nat)
  | _, [] => none
  | md, cur :: rest =>
    if md = some 0 then none
    else
      match cur with
      | .Err e => some (.Err e, rest, md)
      | .Ok (d, items) =>
        match items with
        | [] => nextLoop fs ign (md.map (fun v => v - 1)) rest
        | item :: items' =>
          let restPlus :=
            match item with
            | .Ok name =>
              if fs.isDir (d ++ [name]) then
                if ign.contains name then rest
                else rest ++ [readCursor fs (d ++ [name])]
              else rest
            | .Err _ => rest
          let out : WItem :=
            match item with
            | .Ok name => .Ok ⟨d ++ [name]⟩
            | .Err e => .Err e
          some (out, .Ok (d, items') :: restPlus, md)

/-- `DirWalker::next` (`impl Iterator for DirWalker`). -/
def DirWalker.next (fs : FSM) (w : DirWalker) : Option (WItem × DirWalker) :=
  (nextLoop fs w.ignored_dirs w.max_depth w.iterator_queue).map
    (fun r => (r.1, ⟨r.2.1, r.2.2, w.ignored_dirs⟩))

/-- The items produced by pulling the walker at most `fuel` times.  The
source iterator can run forever on a cyclic (symlinked) filesystem, so the
output sequence is indexed by a pull budget. -/
def walkItems (fs : FSM) : Nat → DirWalker → List WItem
  | 0, _ => []
  | fuel + 1, w =>
    match DirWalker.next fs w with
    | none => []
    | some (item, w') => item :: walkItems fs fuel w'

/-- The full traversal: construct the walker and pull `fuel` times. -/
def walkOut (fs : FSM) (directory : List String) (max_depth : Option Nat)
    (ignored_dirs : List String) (fuel : Nat) : List WItem :=
  walkItems fs fuel (DirWalker.new fs directory max_depth ignored_dirs)

/-- `nextLoop` with the `usize` decrement made partial: `Err ()` is a
panicking underflow (`val - 1` with `val = 0`). -/
def nextLoopChecked (fs : FSM) (ign : List String) :
    Option Nat → List Cursor → RResult Unit (Option (WItem × List Cursor × Option Nat))
  | _, [] => .Ok none
  | md, cur :: rest =>
    if md = some 0 then .Ok none
    else
      match cur with
      | .Err e => .Ok (some (.Err e, rest, md))
      | .Ok (d, items) =>
        match items with
        | [] =>
          match md with
          | none => nextLoopChecked fs ign none rest
          | some v =>
            if v = 0 then .Err ()
            else nextLoopChecked fs ign (some (v - 1)) rest
        | item :: items' =>
          let restPlus :=
            match item with
            | .Ok name =>
              if fs.isDir (d ++ [name]) then
                if ign.contains name then rest
                else rest ++ [readCursor fs (d ++ [name])]
              else rest
            | .Err _ => rest
          let out : WItem :=
            match item with
            | .Ok name => .Ok ⟨d ++ [name]⟩
            | .Err e => .Err e
          .Ok (some (out, .Ok (d, items') :: restPlus, md))

/-! ## Per-file pipeline (`process_file` in `src/main.rs`)

The pipeline's observable behaviour is its trace of warnings, errors,
directory creations and file operations.  `create_dir_all` and the final
rename/copy/symlink are I/O collaborators; the trace records that they were
invoked (their own failures only produce further log lines and do not
change which operations are attempted). -/

/-- The `--action` CLI value (`Action` in `src/main.rs`; renamed because
Mathlib already has an `Action`). -/
inductive CliAction where
  | Test
  | Move
  | Copy
  | Symlink
deriving DecidableEq

/-- Observable steps of one `process_file` run.  `fileOp .Test` is the
"TEST: would move" log line; the other `fileOp`s are the actual
rename / copy / symlink calls. -/
inductive Effect where
  | warnParseFailed (path : String)
  | warnNotFound (name : String)
  | errorTvdb (name : String) (e : TvdbErr)
  | warnExists (p : RPath)
  | createDirAll (p : RPath)
  | fileOp (a : CliAction) (src : String) (dst : RPath)
deriving DecidableEq

/-- The tail of `process_file` after the lookup (`src/main.rs`, from
`let mut final_path = ...`): existence check, parent creation for non-test
actions, then the action itself. -/
def process_file_tail (output : String) (action : CliAction)
    (existsF : RPath → Bool) (path : String) (media_file : MediaFile) :
    List Effect :=
  let final_path := pushPath (pathFromString output) (get_path media_file)
  if existsF final_path then [.warnExists final_path]
  else
    (match action with
     | .Test => []
     | _ =>
       match parentP final_path with
       | some parent => [.createDirAll parent]
       | none => []) ++
    [.fileOp action path final_path]

/-- `process_file` from `src/main.rs`.  Note the lookup-error arm: the
source logs the TVDB error and then falls through to the path computation
and the file operation (there is no `return` in that arm, unlike the
`Ok(false)` arm). -/
def process_file {ρ : Type} (eng : RegexEngine ρ) (config : Config)
    (tvdb : TvdbSearch) (output : String) (action : CliAction)
    (existsF : RPath → Bool) (path : String) : List Effect :=
  match parse_filepath eng path config with
  | none => [.warnParseFailed path]
  | some media_file =>
    match request_name media_file tvdb with
    | (.Ok true, mf) => process_file_tail output action existsF path mf
    | (.Ok false, mf) => [.warnNotFound mf.name]
    | (.Err e, mf) =>
      .errorTvdb mf.name e :: process_file_tail output action existsF path mf


/-! ## Specification-side parser (for the first-full-success refinement)

These definitions follow the wording of the specification, section 4.3: a
single pattern attempt succeeds iff compilation, matching, all named
captures, and numeric parsing all succeed, and the chain commits to the
first success in declared order. -/

/-- One TV pattern attempt, written from the spec's wording. -/
def tvAttempt {ρ : Type} (eng : RegexEngine ρ) (stem : String) (reStr : String) :
    Option (String × MediaData) := do
  let re ← eng.compile reStr
  let caps ← eng.exec re stem
  let name ← caps "name"
  let seasonStr ← caps "season"
  let season ← parse_u32 seasonStr
  let episodeStr ← caps "episode"
  let episode ← parse_u32 episodeStr
  pure (name, MediaData.TvSeries season episode)

/-- One movie pattern attempt, written from the spec's wording. -/
def movieAttempt {ρ : Type} (eng : RegexEngine ρ) (stem : String) (reStr : String) :
    Option (String × MediaData) := do
  let re ← eng.compile reStr
  let caps ← eng.exec re stem
  let name ← caps "name"
  let yearStr ← caps "year"
  let year ← parse_u32 yearStr
  pure (name, MediaData.Movie year)

/-- The spec-side parser: first full success over the TV patterns in
declared order, movie patterns only if no TV pattern succeeds. -/
def parse_stem_spec {ρ : Type} (eng : RegexEngine ρ) (stem : String) (config : Config) :
    Option (String × MediaData) :=
  (config.tv_regex.findSome? (tvAttempt eng stem)).orElse
    (fun _ => config.movie_regex.findSome? (movieAttempt eng stem))

/-! ## Walker traversal invariant -/

/-- Directories the walker may legitimately open: the root, and any chain of
children whose names avoid the exclusion set. -/
inductive GoodDir (root : List String) (ign : List String) : List String → Prop
  | base : GoodDir root ign root
  | step (p : List String) (n : String) (hp : GoodDir root ign p)
      (hn : ¬ n ∈ ign) : GoodDir root ign (p ++ [n])

/-- Every live cursor in the queue reads a `GoodDir` directory. -/
def QGood (root ign : List String) (q : List Cursor) : Prop :=
  ∀ c ∈ q, ∀ d items, c = RResult.Ok (d, items) → GoodDir root ign d

/-! ## Concrete collaborators used in closed-form theorems -/

/-- A filesystem whose root is not a directory. -/
def fsNotDir : FSM :=
  { isDir := fun _ => false, readDir := fun _ => .Err (.Other 0) }

/-- Root `r` containing one excluded subdirectory `Sample`. -/
def fsSample : FSM :=
  { isDir := fun p => p == ["r"] || p == ["r", "Sample"]
    readDir := fun p =>
      if p == ["r"] then .Ok [.Ok "Sample"] else .Err (.Other 0) }

/-- Root `r` containing directory `a` which contains file `f`. -/
def fsNested : FSM :=
  { isDir := fun p => p == ["r"] || p == ["r", "a"]
    readDir := fun p =>
      if p == ["r"] then .Ok [.Ok "a"]
      else if p == ["r", "a"] then .Ok [.Ok "f"]
      else .Err (.Other 0) }

/-- A search collaborator whose transport always fails. -/
def tvdbDown : TvdbSearch := fun _ _ => .Err (.RequestError 0)

/-- A search collaborator that always returns one candidate. -/
def tvdbOne : TvdbSearch := fun _ _ => .Ok [⟨"Refined"⟩]

/-- An engine whose single pattern always matches with fixed captures. -/
def unitEngine : RegexEngine Unit :=
  { compile := fun _ => some ()
    exec := fun _ _ => some (fun g =>
      if g = "name" then some "T"
      else if g = "season" then some "1"
      else if g = "episode" then some "2" else none) }

/-! ## Theorems -/

theorem digitChar_isDig (d : Nat) (h : d < 10) : isDig (digitChar d) = true := by
  interval_cases d <;> decide

theorem digitChar_val (d : Nat) (h : d < 10) : (digitChar d).toNat - 48 = d := by
  interval_cases d <;> decide

theorem digsVal_append_one (l : List Char) (c : Char) :
    digsVal (l ++ [c]) = 10 * digsVal l + (c.toNat - 48) := by
  simp [digsVal, List.foldl_append]

theorem natDigs_spec (fuel n : Nat) (h : n < fuel) :
    digsVal (natDigs fuel n) = n ∧ natDigs fuel n ≠ [] ∧
      ∀ c ∈ natDigs fuel n, isDig c = true := by
  induction fuel generalizing n with
  | zero => omega
  | succ fuel ih =>
    by_cases hn : n < 10
    · refine ⟨?_, ?_, ?_⟩
      · simp [natDigs, hn, digsVal, digitChar_val n hn]
      · simp [natDigs, hn]
      · intro c hc
        simp [natDigs, hn] at hc
        subst hc
        exact digitChar_isDig n hn
    · have hdiv : n / 10 < fuel := by
        have h1 : n / 10 < n := Nat.div_lt_self (by omega) (by omega)
        omega
      obtain ⟨hv, hne, hdig⟩ := ih (n / 10) hdiv
      refine ⟨?_, ?_, ?_⟩
      · have hmod : n % 10 < 10 := Nat.mod_lt _ (by omega)
        simp [natDigs, hn, digsVal_append_one, hv, digitChar_val _ hmod]
        omega
      · simp [natDigs, hn]
      · intro c hc
        simp [natDigs, hn] at hc
        rcases hc with hc | hc
        · exact hdig c hc
        · subst hc
          exact digitChar_isDig _ (Nat.mod_lt _ (by omega))

theorem digsVal_natReprL (n : Nat) : digsVal (natReprL n) = n :=
  (natDigs_spec (n + 1) n (by omega)).1

theorem natReprL_ne_nil (n : Nat) : natReprL n ≠ [] :=
  (natDigs_spec (n + 1) n (by omega)).2.1

theorem natReprL_digits (n : Nat) : ∀ c ∈ natReprL n, isDig c = true :=
  (natDigs_spec (n + 1) n (by omega)).2.2

theorem natReprL_injective : Function.Injective natReprL := by
  intro a b h
  have := digsVal_natReprL a
  rw [h, digsVal_natReprL] at this
  omega

theorem digsVal_pad2 (n : Nat) : digsVal (pad2 n) = n := by
  unfold pad2
  split
  · have : digsVal ('0' :: natReprL n) = digsVal (natReprL n) := by
      simp [digsVal]
    rw [this, digsVal_natReprL]
  · exact digsVal_natReprL n

theorem pad2_injective : Function.Injective pad2 := by
  intro a b h
  have := digsVal_pad2 a
  rw [h, digsVal_pad2] at this
  omega

theorem pad2_digits (n : Nat) : ∀ c ∈ pad2 n, isDig c = true := by
  unfold pad2
  split
  · intro c hc
    rcases List.mem_cons.1 hc with hc | hc
    · subst hc; decide
    · exact natReprL_digits n c hc
  · exact natReprL_digits n

theorem natDigs_succ_ge (fuel n : Nat) (h : ¬ n < 10) :
    natDigs (fuel + 1) n = natDigs fuel (n / 10) ++ [digitChar (n % 10)] := by
  simp [natDigs, h]

theorem pad2_length (n : Nat) : 2 ≤ (pad2 n).length := by
  by_cases hn : n < 10
  · simp [pad2, hn, natReprL, natDigs]
  · have hdiv : n / 10 < n := Nat.div_lt_self (by omega) (by omega)
    have hne := (natDigs_spec n (n / 10) hdiv).2.1
    have he : natReprL n = natDigs n (n / 10) ++ [digitChar (n % 10)] :=
      natDigs_succ_ge n n hn
    simp only [pad2, if_neg hn, he]
    cases hnd : natDigs n (n / 10) with
    | nil => exact absurd hnd hne
    | cons a l => simp [hnd]

theorem splitSlash_no_slash (l : List Char) (h : '/' ∉ l) : splitSlash l = [l] := by
  induction l with
  | nil => rfl
  | cons c rest ih =>
    have hc : c ≠ '/' := fun hcc => h (hcc ▸ List.mem_cons_self c rest)
    have hr : '/' ∉ rest := fun hm => h (List.mem_cons_of_mem c hm)
    simp [splitSlash, hc, ih hr]

theorem pCompsL_no_slash (l : List Char) (h : '/' ∉ l) (hne : l ≠ []) :
    pCompsL l = [l] := by
  simp [pCompsL, splitSlash_no_slash l h, hne]

/-- A digit run followed by a fixed non-digit separator decomposes uniquely. -/
theorem digits_sep_split (s : Char) (hs : isDig s = false) :
    ∀ (l₁ l₂ r₁ r₂ : List Char), (∀ c ∈ l₁, isDig c = true) →
      (∀ c ∈ l₂, isDig c = true) →
      l₁ ++ s :: r₁ = l₂ ++ s :: r₂ → l₁ = l₂ ∧ r₁ = r₂ := by
  intro l₁
  induction l₁ with
  | nil =>
    intro l₂ r₁ r₂ _ h₂ heq
    cases l₂ with
    | nil => simpa using heq
    | cons c l₂' =>
      simp at heq
      obtain ⟨hc, -⟩ := heq
      have := h₂ c (List.mem_cons_self c l₂')
      rw [← hc] at this
      rw [this] at hs
      exact absurd hs (by simp)
  | cons c l₁' ih =>
    intro l₂ r₁ r₂ h₁ h₂ heq
    cases l₂ with
    | nil =>
      simp at heq
      obtain ⟨hc, -⟩ := heq
      have := h₁ c (List.mem_cons_self c l₁')
      rw [hc] at this
      rw [this] at hs
      exact absurd hs (by simp)
    | cons d l₂' =>
      simp at heq
      obtain ⟨hcd, heq'⟩ := heq
      have := ih l₂' r₁ r₂ (fun x hx => h₁ x (List.mem_cons_of_mem c hx))
        (fun x hx => h₂ x (List.mem_cons_of_mem d hx)) heq'
      exact ⟨by rw [hcd, this.1], this.2⟩

theorem slash_not_dig : isDig '/' = false := by decide

/-- Digit characters are never the path separator. -/
theorem dig_ne_slash (c : Char) (h : isDig c = true) : c ≠ '/' := by
  intro hc
  rw [hc] at h
  exact absurd h (by simp [slash_not_dig])


/-- C8: text replacements are applied to the stem strictly left-to-right in
configured order, each replacing all occurrences (literal, non-regex) and
each replacement's output feeding the next (the loop is a left fold); the
single pair `(".", " ")` applied to the stem `"A.B.C"` yields `"A B C"`. -/
theorem replacements_left_fold :
    (∀ (stem : String) (reps : List (String × String)),
      applyReplacements stem reps =
        reps.foldl (fun st pr => rustReplace st pr.1 pr.2) stem) ∧
    applyReplacements "A.B.C" [(".", " ")] = "A B C" := by
  constructor
  · intro stem reps
    induction reps generalizing stem with
    | nil => rfl
    | cons pr rest ih =>
      obtain ⟨f, t⟩ := pr
      simp only [applyReplacements, List.foldl_cons]
      exact ih (rustReplace stem f t)
  · rfl

/-- C9: `request_name` preserves the variant and all non-title fields for
every outcome (same `media_data`, same `extension`); when the lookup
returns a non-empty candidate list the call returns `Ok true` and the title
becomes the first candidate's name. -/
theorem request_name_frame :
    ∀ (m : MediaFile) (tvdb : TvdbSearch),
      (request_name m tvdb).2.media_data = m.media_data ∧
      (request_name m tvdb).2.extension = m.extension ∧
      ∀ r rest, tvdb m.name m.media_type = .Ok (r :: rest) →
        (request_name m tvdb).1 = .Ok true ∧
          (request_name m tvdb).2.name = r.name := by
  intro m tvdb
  obtain ⟨name, ext, md⟩ := m
  cases md with
  | TvSeries s e =>
    simp only [request_name, MediaFile.media_type]
    cases h : tvdb name MediaType.Series with
    | Err e' => simp
    | Ok results =>
      cases results with
      | nil =>
        refine ⟨rfl, rfl, ?_⟩
        intro r rest hr
        exact absurd (RResult.Ok.inj hr) (by simp)
      | cons r rs =>
        refine ⟨rfl, rfl, ?_⟩
        intro r' rest hr
        have := RResult.Ok.inj hr
        simp at this
        simp [this.1]
  | Movie y =>
    simp only [request_name, MediaFile.media_type]
    cases h : tvdb name MediaType.Movie with
    | Err e' => simp
    | Ok results =>
      cases results with
      | nil =>
        refine ⟨rfl, rfl, ?_⟩
        intro r rest hr
        exact absurd (RResult.Ok.inj hr) (by simp)
      | cons r rs =>
        refine ⟨rfl, rfl, ?_⟩
        intro r' rest hr
        have := RResult.Ok.inj hr
        simp at this
        simp [this.1]

/-- Witness for `request_name_frame` at a concrete file and collaborator. -/
theorem request_name_frame_witness :
    (request_name ⟨"A", "mkv", .TvSeries 1 2⟩ tvdbOne).1 = .Ok true ∧
      (request_name ⟨"A", "mkv", .TvSeries 1 2⟩ tvdbOne).2.name = "Refined" :=
  (request_name_frame ⟨"A", "mkv", .TvSeries 1 2⟩ tvdbOne).2.2 ⟨"Refined"⟩ [] rfl

/-- The TV loop of `parse_stem` is the first-success search over single
pattern attempts. -/
theorem tvChain_eq_findSome {ρ : Type} (eng : RegexEngine ρ) (stem : String) :
    ∀ l : List String, tvChain eng stem l = l.findSome? (tvAttempt eng stem) := by
  intro l
  induction l with
  | nil => rfl
  | cons reStr rest ih =>
    simp only [tvChain, List.findSome?, tvAttempt]
    cases hc : eng.compile reStr with
    | none => simp [*]
    | some re =>
      cases hx : eng.exec re stem with
      | none => simp [*]
      | some caps =>
        cases hn : caps "name" with
        | none => simp [*]
        | some name =>
          cases hs : caps "season" with
          | none => simp [*]
          | some seasonStr =>
            cases hps : parse_u32 seasonStr with
            | none => simp [*]
            | some season =>
              cases he : caps "episode" with
              | none => simp [*]
              | some episodeStr =>
                cases hpe : parse_u32 episodeStr with
                | none => simp [*]
                | some episode => simp [*]

/-- The movie loop of `parse_stem` is the first-success search over single
pattern attempts. -/
theorem movieChain_eq_findSome {ρ : Type} (eng : RegexEngine ρ) (stem : String) :
    ∀ l : List String, movieChain eng stem l = l.findSome? (movieAttempt eng stem) := by
  intro l
  induction l with
  | nil => rfl
  | cons reStr rest ih =>
    simp only [movieChain, List.findSome?, movieAttempt]
    cases hc : eng.compile reStr with
    | none => simp [*]
    | some re =>
      cases hx : eng.exec re stem with
      | none => simp [*]
      | some caps =>
        cases hn : caps "name" with
        | none => simp [*]
        | some name =>
          cases hy : caps "year" with
          | none => simp [*]
          | some yearStr =>
            cases hpy : parse_u32 yearStr with
            | none => simp [*]
            | some year => simp [*]

/-- C6: for every normalized stem and configuration (and any regex engine),
the parser equals the spec-side first-full-success chain: TV patterns in
declared order first, committing to the first that yields `name`, `season`,
`episode` with both numbers parsing as unsigned integers; movie patterns in
declared order only if no TV pattern fully succeeds; any compile, match,
capture or numeric-parse failure just moves to the next pattern. -/
theorem parse_stem_first_full_success :
    ∀ {ρ : Type} (eng : RegexEngine ρ) (stem : String) (config : Config),
      parse_stem eng stem config = parse_stem_spec eng stem config := by
  intro ρ eng stem config
  simp only [parse_stem, parse_stem_spec, tvChain_eq_findSome, movieChain_eq_findSome]
  cases config.tv_regex.findSome? (tvAttempt eng stem) with
  | none => simp [Option.orElse]
  | some r => simp [Option.orElse]

/-- C10: the loop of `DirWalker::next` never underflows the `usize` depth
counter: with the decrement modelled as partial (`Err ()` exactly when
`val - 1` would underflow), every input produces `Ok` of the total model's
result — the `val <= 0` pre-check guards every decrement. -/
theorem next_no_usize_underflow :
    ∀ (fs : FSM) (ign : List String) (md : Option Nat) (q : List Cursor),
      nextLoopChecked fs ign md q = .Ok (nextLoop fs ign md q) := by
  intro fs ign md q
  induction q generalizing md with
  | nil => rfl
  | cons cur rest ih =>
    by_cases hmd : md = some 0
    · simp [nextLoopChecked, nextLoop, hmd]
    · cases cur with
      | Err e => simp [nextLoopChecked, nextLoop, hmd]
      | Ok dc =>
        obtain ⟨d, items⟩ := dc
        cases items with
        | nil =>
          cases md with
          | none => simpa [nextLoopChecked, nextLoop, hmd] using ih none
          | some v =>
            have hv : v ≠ 0 := fun h => hmd (by rw [h])
            simpa [nextLoopChecked, nextLoop, hmd, hv] using ih (some (v - 1))
        | cons item items' => simp [nextLoopChecked, nextLoop, hmd]

/-- C4: a walker constructed with `max_depth = Some(0)` emits nothing at
all: the pre-emptive `val <= 0` check fires before the first cursor is
pulled, so the emitted sequence is empty — trivially contained in the
root's immediate non-excluded children listing, and exactly the boundary
the frontier-decrement rule prescribes. -/
theorem max_depth_zero_emits_nothing :
    ∀ (fs : FSM) (directory ign : List String) (fuel : Nat),
      walkOut fs directory (some 0) ign fuel = [] := by
  intro fs directory ign fuel
  cases fuel with
  | zero => rfl
  | succ f =>
    have hnone :
        nextLoop fs ign (some 0) (DirWalker.new fs directory (some 0) ign).iterator_queue
          = none := by
      cases hq : (DirWalker.new fs directory (some 0) ign).iterator_queue with
      | nil => rfl
      | cons c rest => simp [nextLoop]
    show walkItems fs (f + 1) (DirWalker.new fs directory (some 0) ign) = []
    simp only [walkItems, DirWalker.next]
    have h2 : nextLoop fs (DirWalker.new fs directory (some 0) ign).ignored_dirs
        (DirWalker.new fs directory (some 0) ign).max_depth
        (DirWalker.new fs directory (some 0) ign).iterator_queue = none := hnone
    rw [h2]
    rfl

/-- C7 counterexample: with `max_depth = Some(0)` and a root that is not a
directory, the walker emits nothing at all — the `val <= 0` check runs
right after popping the queued error and suppresses it, so the sequence
does not contain the error element the claim promises. -/
theorem not_dir_depth_zero_no_error :
    walkOut fsNotDir ["r"] (some 0) [] 5 = [] := rfl

/-- Pulling a walker whose queue is empty yields nothing. -/
theorem walkItems_empty_queue (fs : FSM) (md : Option Nat) (ign : List String) :
    ∀ fuel, walkItems fs fuel ⟨[], md, ign⟩ = [] := by
  intro fuel
  cases fuel with
  | zero => rfl
  | succ f => rfl

/-- C7 (amended): provided the depth budget is not `Some(0)`, a
non-directory root makes the sequence yield exactly one error element and
then terminate, and a failed `read_dir` cursor reached during traversal is
emitted as one error element while the remaining cursors stay queued (the
popped error cursor is not re-queued, the depth budget is untouched). -/
theorem traversal_error_elements :
    ∀ (fs : FSM) (root ign : List String) (md : Option Nat) (fuel : Nat)
      (e : IOErr) (rest : List Cursor),
      md ≠ some 0 →
      (fs.isDir root = false →
        walkOut fs root md ign (fuel + 1) = [.Err (.NotADirectory root)]) ∧
      nextLoop fs ign md (.Err e :: rest) = some (.Err e, rest, md) := by
  intro fs root ign md fuel e rest hmd
  constructor
  · intro hdir
    have hq : (DirWalker.new fs root md ign).iterator_queue
        = [.Err (.NotADirectory root)] := by
      simp [DirWalker.new, hdir]
    show walkItems fs (fuel + 1) (DirWalker.new fs root md ign) = _
    simp only [walkItems, DirWalker.next]
    have h2 : nextLoop fs (DirWalker.new fs root md ign).ignored_dirs
        (DirWalker.new fs root md ign).max_depth
        (DirWalker.new fs root md ign).iterator_queue
        = some (.Err (.NotADirectory root), [], md) := by
      rw [hq]
      show nextLoop fs ign md _ = _
      simp [nextLoop, hmd]
    rw [h2]
    simp [walkItems_empty_queue]
  · simp [nextLoop, hmd]

/-- Witness for `traversal_error_elements`, at a concrete filesystem with a
file root, an unbounded depth budget, and a concrete queued error. -/
theorem traversal_error_elements_witness :
    walkOut fsNotDir ["r"] none [] 3 = [.Err (.NotADirectory ["r"])] ∧
      nextLoop fsNotDir [] none [.Err (.Other 7)]
        = some (.Err (.Other 7), [], none) :=
  ⟨(traversal_error_elements fsNotDir ["r"] [] none 2 (.Other 7) []
      (by simp)).1 rfl,
    (traversal_error_elements fsNotDir ["r"] [] none 2 (.Other 7) []
      (by simp)).2⟩

set_option maxRecDepth 20000 in
/-- C1: on a TVDB lookup error `process_file` logs the error and then
*continues*: evaluated at a file that parses under the default
configuration and a collaborator whose transport always fails, the trace
still contains the destination-directory creation and the `Move`
operation, with the unrefined parsed title — the `Err` arm of the
`request_name` match is missing the `return` that the `Ok(false)` arm has,
so the claimed "log and skip" does not happen. -/
theorem lookup_error_still_operates :
    process_file defaultEngine defaultConfig tvdbDown "out" .Move
      (fun _ => false) "Paradise.2025.S01E04.480p.x264-RUBiK.mkv" =
    [.errorTvdb "Paradise 2025" (.RequestError 0),
     .createDirAll ⟨false, ["out".data, "TV".data, "Paradise 2025".data,
        "Season 1".data]⟩,
     .fileOp .Move "Paradise.2025.S01E04.480p.x264-RUBiK.mkv"
       ⟨false, ["out".data, "TV".data, "Paradise 2025".data, "Season 1".data,
        "Paradise 2025 - s01e04.mkv".data]⟩] := by
  decide


set_option maxRecDepth 20000 in
/-- C3 counterexample: the default TV pattern's `(?<name>.*)` can match the
empty string, so parsing the file `" S01E04.mkv"` under the default
configuration succeeds with an *empty* title. -/
theorem parse_can_yield_empty_title :
    parse_filepath defaultEngine " S01E04.mkv" defaultConfig =
      some ⟨"", "mkv", MediaData.TvSeries 1 4⟩ := by
  decide

/-- A successful TV pattern attempt takes its title verbatim from the
pattern's `name` capture on this stem. -/
theorem tvAttempt_name_from_capture {ρ : Type} (eng : RegexEngine ρ) (stem : String)
    (reStr : String) (n : String) (md : MediaData)
    (h : tvAttempt eng stem reStr = some (n, md)) :
    ∃ (re : ρ) (caps : String → Option String),
      eng.exec re stem = some caps ∧ caps "name" = some n := by
  simp only [tvAttempt, bind, Option.bind_eq_some, Option.pure_def,
    Option.some.injEq] at h
  obtain ⟨re, hre, caps, hcaps, name, hname, seasonStr, hs, season, hps,
    episodeStr, he, episode, hpe, heq⟩ := h
  refine ⟨re, caps, hcaps, ?_⟩
  rw [hname]
  have : name = n := congrArg Prod.fst heq
  rw [this]

/-- A successful movie pattern attempt takes its title verbatim from the
pattern's `name` capture on this stem. -/
theorem movieAttempt_name_from_capture {ρ : Type} (eng : RegexEngine ρ) (stem : String)
    (reStr : String) (n : String) (md : MediaData)
    (h : movieAttempt eng stem reStr = some (n, md)) :
    ∃ (re : ρ) (caps : String → Option String),
      eng.exec re stem = some caps ∧ caps "name" = some n := by
  simp only [movieAttempt, bind, Option.bind_eq_some, Option.pure_def,
    Option.some.injEq] at h
  obtain ⟨re, hre, caps, hcaps, name, hname, yearStr, hy, year, hpy, heq⟩ := h
  refine ⟨re, caps, hcaps, ?_⟩
  rw [hname]
  have : name = n := congrArg Prod.fst heq
  rw [this]

/-- C3 (amended): the parser does not enforce a non-empty title — the title
is exactly the matched `name` capture.  Whenever the engine can never
produce an empty `name` capture, every successful parse has a non-empty
title. -/
theorem parse_title_nonempty_amended :
    ∀ {ρ : Type} (eng : RegexEngine ρ) (config : Config) (path : String)
      (mf : MediaFile),
      (∀ (re : ρ) (s : String) (caps : String → Option String),
        eng.exec re s = some caps → caps "name" ≠ some "") →
      parse_filepath eng path config = some mf → mf.name ≠ "" := by
  intro ρ eng config path mf hcap hparse
  rw [parse_filepath] at hparse
  cases hst : get_filestem path with
  | none => rw [hst] at hparse; exact absurd hparse (by simp)
  | some stem0 =>
    rw [hst] at hparse
    simp only [] at hparse
    cases hps : parse_stem eng (applyReplacements stem0 config.replacements) config with
    | none => rw [hps] at hparse; exact absurd hparse (by simp)
    | some pr =>
      obtain ⟨n, md⟩ := pr
      rw [hps] at hparse
      cases hex : get_extension path with
      | none => rw [hex] at hparse; exact absurd hparse (by simp)
      | some ext =>
        rw [hex] at hparse
        have hmf := Option.some.inj hparse
        have hname : mf.name = n := by rw [← hmf]
        rw [parse_stem] at hps
        rw [hname]
        intro hempty
        subst hempty
        cases htv : tvChain eng (applyReplacements stem0 config.replacements)
            config.tv_regex with
        | some r =>
          rw [htv] at hps
          have hr := Option.some.inj hps
          subst hr
          rw [tvChain_eq_findSome] at htv
          obtain ⟨reStr, hmem, hatt⟩ := List.exists_of_findSome?_eq_some htv
          obtain ⟨re, caps, hx, hcaps⟩ :=
            tvAttempt_name_from_capture eng _ reStr "" md hatt
          exact hcap re _ caps hx hcaps
        | none =>
          rw [htv] at hps
          rw [movieChain_eq_findSome] at hps
          obtain ⟨reStr, hmem, hatt⟩ := List.exists_of_findSome?_eq_some hps
          obtain ⟨re, caps, hx, hcaps⟩ :=
            movieAttempt_name_from_capture eng _ reStr "" md hatt
          exact hcap re _ caps hx hcaps

/-- Witness for `parse_title_nonempty_amended`: a concrete engine that can
never produce an empty name capture, on a concrete file. -/
theorem parse_title_nonempty_witness :
    parse_filepath unitEngine "x.mkv" defaultConfig =
        some ⟨"T", "mkv", MediaData.TvSeries 1 2⟩ ∧
      (⟨"T", "mkv", MediaData.TvSeries 1 2⟩ : MediaFile).name ≠ "" := by
  refine ⟨by decide, ?_⟩
  refine parse_title_nonempty_amended unitEngine defaultConfig "x.mkv" _ ?_ (by decide)
  intro re s caps h
  have hc : (fun g =>
      if g = "name" then some "T"
      else if g = "season" then some "1"
      else if g = "episode" then some "2" else none) = caps :=
    Option.some.inj h
  rw [← hc]
  decide

/-- A `GoodDir` sits under the root and all its intermediate names avoid
the exclusion set. -/
theorem goodDir_decomp {root ign : List String} :
    ∀ {d : List String}, GoodDir root ign d →
      ∃ l, d = root ++ l ∧ ∀ x ∈ l, ¬ x ∈ ign := by
  intro d h
  induction h with
  | base => exact ⟨[], by simp⟩
  | step p n hp hn ih =>
    obtain ⟨l, hl, hall⟩ := ih
    refine ⟨l ++ [n], by simp [hl], ?_⟩
    intro x hx
    rcases List.mem_append.1 hx with hx | hx
    · exact hall x hx
    · simp at hx
      subst hx
      exact hn

/-- One pull of the queue loop preserves the cursor invariant, and any
entry it emits is a direct child of a `GoodDir` directory. -/
theorem nextLoop_good (fs : FSM) (root ign : List String) :
    ∀ (q : List Cursor) (md : Option Nat) (item : WItem) (q' : List Cursor)
      (md' : Option Nat),
      QGood root ign q → nextLoop fs ign md q = some (item, q', md') →
      QGood root ign q' ∧
        ∀ e : WEntry, item = .Ok e →
          ∃ d n, GoodDir root ign d ∧ e.path = d ++ [n] := by
  intro q
  induction q with
  | nil => intro md item q' md' hq h; exact absurd h (by simp [nextLoop])
  | cons cur rest ih =>
    intro md item q' md' hq h
    simp only [nextLoop] at h
    by_cases hmd : md = some 0
    · rw [if_pos hmd] at h
      exact absurd h (by simp)
    · rw [if_neg hmd] at h
      have hrest : QGood root ign rest := by
        intro c hc d items hcd
        exact hq c (List.mem_cons_of_mem cur hc) d items hcd
      cases cur with
      | Err e =>
        have hh := Option.some.inj h
        simp only [Prod.mk.injEq] at hh
        obtain ⟨h1, h2, h3⟩ := hh
        subst h1
        subst h2
        refine ⟨hrest, ?_⟩
        intro e' he'
        exact absurd he' (by simp)
      | Ok dc =>
        obtain ⟨d, items⟩ := dc
        have hd : GoodDir root ign d :=
          hq (.Ok (d, items)) (List.mem_cons_self _ _) d items rfl
        cases items with
        | nil => exact ih (md.map (fun v => v - 1)) item q' md' hrest h
        | cons it items' =>
          have hh := Option.some.inj h
          simp only [Prod.mk.injEq] at hh
          obtain ⟨h1, h2, h3⟩ := hh
          subst h1
          subst h2
          constructor
          · intro c hc dd ii hcd
            rcases List.mem_cons.1 hc with hc | hc
            · rw [hcd] at hc
              have := RResult.Ok.inj hc.symm
              have hdd : d = dd := congrArg Prod.fst this
              rw [← hdd]
              exact hd
            · cases it with
              | Err e =>
                exact hrest c hc dd ii hcd
              | Ok name =>
                simp only [] at hc
                by_cases hdir : fs.isDir (d ++ [name])
                · by_cases hign : ign.contains name
                  · rw [if_pos hdir, if_pos hign] at hc
                    exact hrest c hc dd ii hcd
                  · rw [if_pos hdir, if_neg hign] at hc
                    rcases List.mem_append.1 hc with hc | hc
                    · exact hrest c hc dd ii hcd
                    · simp at hc
                      rw [hc] at hcd
                      unfold readCursor at hcd
                      cases hrd : fs.readDir (d ++ [name]) with
                      | Ok items2 =>
                        rw [hrd] at hcd
                        have := RResult.Ok.inj hcd
                        have hdd : dd = d ++ [name] := congrArg Prod.fst this.symm
                        rw [hdd]
                        refine GoodDir.step d name hd ?_
                        intro hmem
                        exact hign (List.elem_eq_true_of_mem hmem)
                      | Err e =>
                        rw [hrd] at hcd
                        exact absurd hcd (by simp)
                · rw [if_neg hdir] at hc
                  exact hrest c hc dd ii hcd
          · intro e he
            cases it with
            | Err e2 => exact absurd he.symm (by simp)
            | Ok name =>
              have := RResult.Ok.inj he.symm
              exact ⟨d, name, hd, by rw [this]⟩

/-- Every `Ok` entry the walker ever emits from an invariant-respecting
state is a direct child of a `GoodDir` directory. -/
theorem walkItems_good (fs : FSM) (root : List String) :
    ∀ (fuel : Nat) (w : DirWalker),
      QGood root w.ignored_dirs w.iterator_queue →
      ∀ item ∈ walkItems fs fuel w, ∀ e : WEntry, item = .Ok e →
        ∃ d n, GoodDir root w.ignored_dirs d ∧ e.path = d ++ [n] := by
  intro fuel
  induction fuel with
  | zero => intro w hw item hmem; exact absurd hmem (by simp [walkItems])
  | succ f ih =>
    intro w hw item hmem e he
    rw [walkItems] at hmem
    cases hn : DirWalker.next fs w with
    | none => rw [hn] at hmem; exact absurd hmem (by simp)
    | some pr =>
      obtain ⟨item', w'⟩ := pr
      rw [hn] at hmem
      unfold DirWalker.next at hn
      cases hl : nextLoop fs w.ignored_dirs w.max_depth w.iterator_queue with
      | none => rw [hl] at hn; exact absurd hn (by simp)
      | some r =>
        obtain ⟨it2, q2, md2⟩ := r
        rw [hl] at hn
        have hn' := Option.some.inj hn
        simp only [Prod.mk.injEq] at hn'
        obtain ⟨hit, hw'⟩ := hn'
        obtain ⟨hgood, hemit⟩ :=
          nextLoop_good fs root w.ignored_dirs w.iterator_queue w.max_depth
            it2 q2 md2 hw hl
        rcases List.mem_cons.1 hmem with hmem | hmem
        · subst hmem
          rw [← hit] at he
          exact hemit e he
        · have hwq : w'.iterator_queue = q2 := by rw [← hw']
          have hwi : w'.ignored_dirs = w.ignored_dirs := by rw [← hw']
          have := ih w' (by rw [hwq, hwi]; exact hgood) item hmem e he
          rw [hwi] at this
          exact this

/-- C2 (amended): the walker never emits an entry lying strictly below an
excluded directory: no strict ancestor component (below the root) of an
emitted entry's path is in the exclusion set.  (The excluded directory's
own entry *is* emitted — see the counterexample — it is only never
descended into.) -/
theorem no_descendant_of_excluded :
    ∀ (fs : FSM) (root ign : List String) (md : Option Nat) (fuel : Nat)
      (item : WItem) (e : WEntry),
      item ∈ walkOut fs root md ign fuel → item = .Ok e →
      ∀ (q1 : List String) (x : String) (q2 : List String),
        e.path = root ++ (q1 ++ x :: q2) → q2 ≠ [] → ¬ x ∈ ign := by
  intro fs root ign md fuel item e hmem he q1 x q2 hpath hq2
  have hq : QGood root ign (DirWalker.new fs root md ign).iterator_queue := by
    intro c hc d items hcd
    simp only [DirWalker.new] at hc
    by_cases hdir : fs.isDir root
    · rw [if_pos hdir] at hc
      simp at hc
      rw [hc] at hcd
      unfold readCursor at hcd
      cases hrd : fs.readDir root with
      | Ok items2 =>
        rw [hrd] at hcd
        have := RResult.Ok.inj hcd
        have hdd : root = d := congrArg Prod.fst this
        rw [← hdd]
        exact GoodDir.base
      | Err e2 =>
        rw [hrd] at hcd
        exact absurd hcd (by simp)
    · rw [if_neg hdir] at hc
      simp at hc
      rw [hc] at hcd
      exact absurd hcd (by simp)
  obtain ⟨d, n, hgood, hdn⟩ := walkItems_good fs root fuel
    (DirWalker.new fs root md ign) hq item hmem e he
  obtain ⟨l, hdl, hall⟩ := goodDir_decomp hgood
  rw [hdn, hdl] at hpath
  have hsplit : l ++ [n] = q1 ++ x :: q2 := by
    have := hpath
    rw [List.append_assoc] at this
    exact List.append_cancel_left this
  obtain ⟨q2', b, hb⟩ :
      ∃ q2' b, q2 = q2' ++ [b] := by
    cases hq2' : q2.reverse with
    | nil => exact absurd (by simpa using congrArg List.reverse hq2') hq2
    | cons a t =>
      refine ⟨t.reverse, a, ?_⟩
      have := congrArg List.reverse hq2'
      simpa using this
  rw [hb] at hsplit
  have hsplit2 : l ++ [n] = (q1 ++ x :: q2') ++ [b] := by
    rw [hsplit]
    simp
  have hlq : l = q1 ++ x :: q2' :=
    (List.append_inj' hsplit2 rfl).1
  exact hall x (by rw [hlq]; exact List.mem_append_right q1 (List.mem_cons_self x q2'))

/-- C2 counterexample: the excluded directory's own entry is emitted.  On a
root containing an excluded directory `Sample`, the walker's output
contains the entry whose basename `Sample` is in the exclusion set (it is
merely never descended into). -/
theorem excluded_dir_entry_is_emitted :
    walkOut fsSample ["r"] none ["Sample"] 5 =
        [.Ok ⟨["r", "Sample"]⟩] ∧
      "Sample" ∈ (["Sample"] : List String) := ⟨rfl, by simp⟩

/-- Witness for `no_descendant_of_excluded` on a concrete two-level
filesystem: entry `r/a/f` is emitted and its strict ancestor component `a`
is indeed not excluded. -/
theorem no_descendant_of_excluded_witness :
    (RResult.Ok (⟨["r", "a", "f"]⟩ : WEntry)
        ∈ walkOut fsNested ["r"] none ["Sample"] 6) ∧
      ¬ "a" ∈ (["Sample"] : List String) :=
  ⟨by decide,
    no_descendant_of_excluded fsNested ["r"] ["Sample"] none 6
      (RResult.Ok ⟨["r", "a", "f"]⟩) ⟨["r", "a", "f"]⟩ (by decide) rfl
      [] "a" ["f"] rfl (by simp)⟩

/-- Strings with equal character data are equal. -/
theorem string_data_ext {a b : String} (h : a.data = b.data) : a = b := by
  cases a
  cases b
  exact congrArg String.mk (by simpa using h)

/-- The decimal form of a number contains no path separator. -/
theorem no_slash_natReprL (n : Nat) : '/' ∉ natReprL n := by
  intro hmem
  exact dig_ne_slash '/' (natReprL_digits n '/' hmem) rfl

/-- The zero-padded form of a number contains no path separator. -/
theorem no_slash_pad2 (n : Nat) : '/' ∉ pad2 n := by
  intro hmem
  exact dig_ne_slash '/' (pad2_digits n '/' hmem) rfl

/-- `pComps` of a non-empty separator-free string is that one component. -/
theorem pComps_single (s : String) (h1 : '/' ∉ s.data) (h2 : s.data ≠ []) :
    pComps s = [s.data] :=
  pCompsL_no_slash s.data h1 h2

/-- A separator-free string is not absolute. -/
theorem isAbsStr_eq_false (s : String) (h : '/' ∉ s.data) :
    isAbsStr s = false := by
  unfold isAbsStr
  cases hd : s.data with
  | nil => rfl
  | cons c t =>
    have hc : c ≠ '/' := by
      rw [hd] at h
      intro hcc
      exact h (hcc ▸ List.mem_cons_self c t)
    split
    · rename_i heq
      injection heq with h1 h2
      exact absurd h1 hc
    · rfl

/-- `push` with a non-empty separator-free string appends one component. -/
theorem pushP_single (p : RPath) (s : String) (h1 : '/' ∉ s.data)
    (h2 : s.data ≠ []) :
    pushP p s = ⟨p.absolute, p.comps ++ [s.data]⟩ := by
  rw [pushP, isAbsStr_eq_false s h1]
  simp [pComps_single s h1 h2]

/-- No separator in either part, none in the concatenation. -/
theorem no_slash_append {l1 l2 : List Char} (h1 : '/' ∉ l1) (h2 : '/' ∉ l2) :
    '/' ∉ l1 ++ l2 := by
  intro hm
  rcases List.mem_append.1 hm with hm | hm
  exacts [h1 hm, h2 hm]

/-- A concatenation with a non-empty left part is non-empty. -/
theorem append_ne_nil_left {l1 l2 : List Char} (h : l1 ≠ []) : l1 ++ l2 ≠ [] := by
  intro hn
  rw [List.append_eq_nil] at hn
  exact h hn.1

/-- The components of a TV destination path, for separator-free fields. -/
theorem get_path_tv_comps (name ext : String) (s e : Nat)
    (hn : '/' ∉ name.data) (hne : name.data ≠ []) (hx : '/' ∉ ext.data) :
    get_path ⟨name, ext, MediaData.TvSeries s e⟩ =
      ⟨false, ["TV".data, name.data, "Season ".data ++ natReprL s,
        name.data ++ (" - s".data ++ (pad2 s ++ ("e".data ++ (pad2 e
          ++ ('.' :: ext.data)))))]⟩ := by
  have hd3 : ("Season " ++ (⟨natReprL s⟩ : String)).data
      = "Season ".data ++ natReprL s := String.data_append _ _
  have h3s : '/' ∉ ("Season " ++ (⟨natReprL s⟩ : String)).data := by
    rw [hd3]
    exact no_slash_append (by decide) (no_slash_natReprL s)
  have h3ne : ("Season " ++ (⟨natReprL s⟩ : String)).data ≠ [] := by
    rw [hd3]
    exact append_ne_nil_left (by decide)
  have hd4 : (name ++ " - s" ++ (⟨pad2 s⟩ : String) ++ "e" ++ (⟨pad2 e⟩ : String)
        ++ "." ++ ext).data
      = name.data ++ (" - s".data ++ (pad2 s ++ ("e".data ++ (pad2 e
          ++ ('.' :: ext.data))))) := by
    simp only [String.data_append]
    simp [List.append_assoc]
  have h4s : '/' ∉ (name ++ " - s" ++ (⟨pad2 s⟩ : String) ++ "e"
      ++ (⟨pad2 e⟩ : String) ++ "." ++ ext).data := by
    rw [hd4]
    exact no_slash_append hn (no_slash_append (by decide) (no_slash_append
      (no_slash_pad2 s) (no_slash_append (by decide) (no_slash_append
        (no_slash_pad2 e) (fun hm => by
          rcases List.mem_cons.1 hm with hm | hm
          · exact absurd hm (by decide)
          · exact hx hm)))))
  have h4ne : (name ++ " - s" ++ (⟨pad2 s⟩ : String) ++ "e"
      ++ (⟨pad2 e⟩ : String) ++ "." ++ ext).data ≠ [] := by
    rw [hd4]
    exact append_ne_nil_left hne
  show pushP (pushP (pushP (pushP emptyPath "TV") name) _) _ = _
  rw [pushP_single emptyPath "TV" (by decide) (by decide)]
  rw [pushP_single _ name hn hne]
  rw [pushP_single _ _ h3s h3ne]
  rw [pushP_single _ _ h4s h4ne]
  simp [emptyPath, hd3, hd4]

/-- The components of a movie destination path, for separator-free fields. -/
theorem get_path_movie_comps (name ext : String) (y : Nat)
    (hn : '/' ∉ name.data) (hne : name.data ≠ []) (hx : '/' ∉ ext.data) :
    get_path ⟨name, ext, MediaData.Movie y⟩ =
      ⟨false, ["Movies".data,
        name.data ++ (" (".data ++ (natReprL y ++ [')'])),
        name.data ++ (" (".data ++ (natReprL y ++ (')' :: '.' :: ext.data)))]⟩ := by
  have hd2 : (name ++ " (" ++ (⟨natReprL y⟩ : String) ++ ")").data
      = name.data ++ (" (".data ++ (natReprL y ++ [')'])) := by
    simp only [String.data_append]
    simp [List.append_assoc]
  have h2s : '/' ∉ (name ++ " (" ++ (⟨natReprL y⟩ : String) ++ ")").data := by
    rw [hd2]
    exact no_slash_append hn (no_slash_append (by decide) (no_slash_append
      (no_slash_natReprL y) (by decide)))
  have h2ne : (name ++ " (" ++ (⟨natReprL y⟩ : String) ++ ")").data ≠ [] := by
    rw [hd2]
    exact append_ne_nil_left hne
  have hd3 : (name ++ " (" ++ (⟨natReprL y⟩ : String) ++ ")." ++ ext).data
      = name.data ++ (" (".data ++ (natReprL y ++ (')' :: '.' :: ext.data))) := by
    simp only [String.data_append]
    simp [List.append_assoc]
  have h3s : '/' ∉ (name ++ " (" ++ (⟨natReprL y⟩ : String) ++ ")." ++ ext).data := by
    rw [hd3]
    exact no_slash_append hn (no_slash_append (by decide) (no_slash_append
      (no_slash_natReprL y) (fun hm => by
        rcases List.mem_cons.1 hm with hm | hm
        · exact absurd hm (by decide)
        · rcases List.mem_cons.1 hm with hm | hm
          · exact absurd hm (by decide)
          · exact hx hm)))
  have h3ne : (name ++ " (" ++ (⟨natReprL y⟩ : String) ++ ")." ++ ext).data ≠ [] := by
    rw [hd3]
    exact append_ne_nil_left hne
  show pushP (pushP (pushP emptyPath "Movies") _) _ = _
  rw [pushP_single emptyPath "Movies" (by decide) (by decide)]
  rw [pushP_single _ _ h2s h2ne]
  rw [pushP_single _ _ h3s h3ne]
  simp [emptyPath, hd2, hd3]

/-- A `<name> (<year>)` segment decomposes uniquely: parsing from the right,
the digit run before the final `')'` ends at the non-digit `'('`. -/
theorem paren_segment_inj (a₁ a₂ : List Char) (y₁ y₂ : Nat)
    (h : a₁ ++ (" (".data ++ (natReprL y₁ ++ [')']))
       = a₂ ++ (" (".data ++ (natReprL y₂ ++ [')']))) :
    a₁ = a₂ ∧ y₁ = y₂ := by
  have hshape : ∀ (a d : List Char),
      (a ++ (" (".data ++ (d ++ [')']))).reverse
        = ')' :: (d.reverse ++ ('(' :: (' ' :: a.reverse))) := by
    intro a d
    simp
  have hr := congrArg List.reverse h
  rw [hshape a₁ (natReprL y₁), hshape a₂ (natReprL y₂)] at hr
  injection hr with h1 h2
  obtain ⟨hd, hrest⟩ := digits_sep_split '(' (by decide)
    (natReprL y₁).reverse (natReprL y₂).reverse
    (' ' :: a₁.reverse) (' ' :: a₂.reverse)
    (fun c hc => natReprL_digits y₁ c (List.mem_reverse.1 hc))
    (fun c hc => natReprL_digits y₂ c (List.mem_reverse.1 hc)) h2
  constructor
  · injection hrest with h3 h4
    simpa using congrArg List.reverse h4
  · exact natReprL_injective (by simpa using congrArg List.reverse hd)

/-- C5 (amended): destination-path resolution is injective across both
variants for files whose (non-empty) title and extension contain no path
separator; and season/episode numbers are zero-padded to at least two
digits, unpadded decimal (hence at least three digits wide) once the
number reaches 100. -/
theorem resolve_injective_amended :
    (∀ m₁ m₂ : MediaFile,
      m₁.name ≠ "" → m₂.name ≠ "" →
      '/' ∉ m₁.name.data → '/' ∉ m₂.name.data →
      '/' ∉ m₁.extension.data → '/' ∉ m₂.extension.data →
      get_path m₁ = get_path m₂ → m₁ = m₂) ∧
    ∀ n : Nat, 2 ≤ (pad2 n).length ∧
      (100 ≤ n → pad2 n = natReprL n ∧ 3 ≤ (pad2 n).length) := by
  constructor
  · intro m₁ m₂ hne₁ hne₂ hn₁ hn₂ hx₁ hx₂ hpath
    obtain ⟨name₁, ext₁, md₁⟩ := m₁
    obtain ⟨name₂, ext₂, md₂⟩ := m₂
    simp only [] at hn₁ hn₂ hx₁ hx₂ hne₁ hne₂
    have hdne₁ : name₁.data ≠ [] := fun h => hne₁ (string_data_ext (by simp [h]))
    have hdne₂ : name₂.data ≠ [] := fun h => hne₂ (string_data_ext (by simp [h]))
    cases md₁ with
    | TvSeries s₁ e₁ =>
      cases md₂ with
      | TvSeries s₂ e₂ =>
        rw [get_path_tv_comps name₁ ext₁ s₁ e₁ hn₁ hdne₁ hx₁,
            get_path_tv_comps name₂ ext₂ s₂ e₂ hn₂ hdne₂ hx₂] at hpath
        have hcomps := congrArg RPath.comps hpath
        simp only [List.cons.injEq, and_true] at hcomps
        obtain ⟨-, h2, h3, h4⟩ := hcomps
        have hname : name₁ = name₂ := string_data_ext h2
        subst hname
        have hs : s₁ = s₂ := natReprL_injective (List.append_cancel_left h3)
        subst hs
        have h4a := List.append_cancel_left h4
        have h4b := List.append_cancel_left h4a
        have h4c := List.append_cancel_left h4b
        have h4d := List.append_cancel_left h4c
        obtain ⟨hpe, hext⟩ := digits_sep_split '.' (by decide)
          (pad2 e₁) (pad2 e₂) ext₁.data ext₂.data
          (pad2_digits e₁) (pad2_digits e₂) h4d
        have he : e₁ = e₂ := pad2_injective hpe
        have hx : ext₁ = ext₂ := string_data_ext hext
        rw [he, hx]
      | Movie y₂ =>
        rw [get_path_tv_comps name₁ ext₁ s₁ e₁ hn₁ hdne₁ hx₁,
            get_path_movie_comps name₂ ext₂ y₂ hn₂ hdne₂ hx₂] at hpath
        have h43 : (4 : Nat) = 3 :=
          congrArg (fun p => p.comps.length) hpath
        exact absurd h43 (by decide)
    | Movie y₁ =>
      cases md₂ with
      | TvSeries s₂ e₂ =>
        rw [get_path_movie_comps name₁ ext₁ y₁ hn₁ hdne₁ hx₁,
            get_path_tv_comps name₂ ext₂ s₂ e₂ hn₂ hdne₂ hx₂] at hpath
        have h34 : (3 : Nat) = 4 :=
          congrArg (fun p => p.comps.length) hpath
        exact absurd h34 (by decide)
      | Movie y₂ =>
        rw [get_path_movie_comps name₁ ext₁ y₁ hn₁ hdne₁ hx₁,
            get_path_movie_comps name₂ ext₂ y₂ hn₂ hdne₂ hx₂] at hpath
        have hcomps := congrArg RPath.comps hpath
        simp only [List.cons.injEq, and_true] at hcomps
        obtain ⟨-, h2, h3⟩ := hcomps
        obtain ⟨hname, hy⟩ := paren_segment_inj name₁.data name₂.data y₁ y₂ h2
        have hname' : name₁ = name₂ := string_data_ext hname
        subst hname'
        subst hy
        have h3a := List.append_cancel_left h3
        have h3b := List.append_cancel_left h3a
        have h3c := List.append_cancel_left h3b
        injection h3c with h5 h6
        injection h6 with h7 h8
        have hx : ext₁ = ext₂ := string_data_ext h8
        rw [hx]
  · intro n
    refine ⟨pad2_length n, ?_⟩
    intro h100
    have hn10 : ¬ n < 10 := by omega
    refine ⟨by simp [pad2, hn10], ?_⟩
    have hrepr : natReprL n = natDigs n (n / 10) ++ [digitChar (n % 10)] :=
      natDigs_succ_ge n n hn10
    have hd10 : ¬ n / 10 < 10 := by omega
    have hsub : n / 10 < n := Nat.div_lt_self (by omega) (by omega)
    have hstep : natDigs ((n - 1) + 1) (n / 10)
        = natDigs (n - 1) (n / 10 / 10) ++ [digitChar (n / 10 % 10)] :=
      natDigs_succ_ge (n - 1) (n / 10) hd10
    have hn1 : (n - 1) + 1 = n := by omega
    rw [hn1] at hstep
    have hinner : natDigs (n - 1) (n / 10 / 10) ≠ [] := by
      refine (natDigs_spec (n - 1) (n / 10 / 10) ?_).2.1
      have : n / 10 / 10 < n / 10 := Nat.div_lt_self (by omega) (by omega)
      omega
    simp only [pad2, if_neg hn10, hrepr, hstep]
    cases hcase : natDigs (n - 1) (n / 10 / 10) with
    | nil => exact absurd hcase hinner
    | cons a t => simp

/-- C5 counterexample: two distinct TV tuples with non-empty titles resolve
to the same path.  `PathBuf::push` with an absolute component replaces the
whole path, so a title beginning with `/` lets the final push erase the
earlier components and the two destinations coincide. -/
theorem resolve_not_injective_cex :
    (get_path ⟨"/T", "a - s02e02.b", MediaData.TvSeries 1 1⟩
        = get_path ⟨"/T - s01e01.a", "b", MediaData.TvSeries 2 2⟩) ∧
      ("/T" : String) ≠ "" ∧ ("/T - s01e01.a" : String) ≠ "" ∧
      (⟨"/T", "a - s02e02.b", MediaData.TvSeries 1 1⟩ : MediaFile)
        ≠ ⟨"/T - s01e01.a", "b", MediaData.TvSeries 2 2⟩ := by
  decide

/-- Witness for `resolve_injective_amended` at concrete inputs. -/
theorem resolve_injective_amended_witness :
    (⟨"A", "mkv", MediaData.TvSeries 1 2⟩ : MediaFile)
        = ⟨"A", "mkv", MediaData.TvSeries 1 2⟩ ∧
      2 ≤ (pad2 7).length ∧ pad2 100 = natReprL 100 :=
  ⟨resolve_injective_amended.1 _ _ (by decide) (by decide) (by decide)
      (by decide) (by decide) (by decide) rfl,
    (resolve_injective_amended.2 7).1,
    ((resolve_injective_amended.2 100).2 (by omega)).1⟩
